import Mathlib

/-!
Shallow embedding of the cryptowatcher TUI application (src/app.rs, src/ui.rs,
src/api.rs, src/main.rs).  Prices (Rust `f64`) are embedded as exact rationals
`ℚ`; timestamps (`i64`) as `Int`; `VecDeque` front-to-back as a `List` whose
head is the oldest entry.  Ambient effects (the wall clock in
`CoinData::update`, the local-time formatter in `time_labels`, the HTTP layer)
are passed as explicit arguments.
-/

/-- Embeds `MAX_HISTORY` from src/app.rs. -/
def MAX_HISTORY : Nat := 60

/-- Embeds `MAX_COINS` from src/main.rs. -/
def MAX_COINS : Nat := 20

/-- Embeds `TickerData` from src/api.rs (numeric fields as exact rationals). -/
structure TickerData where
  symbol : String
  last_price : ℚ
  price_change_percent : ℚ
  high_price : ℚ
  low_price : ℚ
  volume : ℚ
deriving DecidableEq, Repr

/-- Embeds `CoinData` from src/app.rs.  `price_history` holds the
`(timestamp_ms, price)` pairs oldest-first (list head = `VecDeque` front). -/
structure CoinData where
  symbol : String
  display_name : String
  price : ℚ
  change_24h : ℚ
  high_24h : ℚ
  low_24h : ℚ
  volume_24h : ℚ
  price_history : List (Int × ℚ)
deriving DecidableEq, Repr

/-- Embeds `CoinData::new`. -/
def CoinData.new (symbol : String) : CoinData :=
  { symbol := symbol
    display_name := symbol.replace "USDT" "/USDT"
    price := 0
    change_24h := 0
    high_24h := 0
    low_24h := 0
    volume_24h := 0
    price_history := [] }

/-- Embeds `CoinData::update`.  The wall-clock reading
`chrono::Utc::now().timestamp_millis()` is passed explicitly as `now_ms`. -/
def CoinData.update (c : CoinData) (ticker : TickerData) (now_ms : Int) : CoinData :=
  { c with
    price := ticker.last_price
    change_24h := ticker.price_change_percent
    high_24h := ticker.high_price
    low_24h := ticker.low_price
    volume_24h := ticker.volume
    price_history :=
      (if MAX_HISTORY ≤ c.price_history.length then c.price_history.tail
       else c.price_history) ++ [(now_ms, ticker.last_price)] }

/-- Embeds `CoinData::history_data`. -/
def CoinData.history_data (c : CoinData) : List (ℚ × ℚ) :=
  (c.price_history.enum.map fun p => ((p.1 : ℚ), p.2.2))

/-- Embeds `CoinData::price_bounds`.  The Rust fold over `f64::min`/`f64::max`
starting from `±INFINITY` equals, on the (guaranteed non-empty) price list, the
fold starting from the first element, which is how it is rendered here over ℚ
(ℚ has no infinities).  The literal `0.1` is the exact rational 1/10. -/
def CoinData.price_bounds (c : CoinData) : ℚ × ℚ :=
  match c.price_history.map Prod.snd with
  | [] => (0, 100)
  | p :: ps =>
    let mn := ps.foldl min p
    let mx := ps.foldl max p
    let padding := (mx - mn) * (1 / 10)
    (mn - padding, mx + padding)

/-- Renders one timestamp for `CoinData::time_labels`: the abstract local-time
formatter `fmt` (embedding `Local.timestamp_millis_opt(ts).single()` followed
by `format("%H:%M")`) yields the placeholder on conversion failure. -/
def fmtD (fmt : Int → Option String) (ts : Int) : String :=
  match fmt ts with
  | some s => s
  | none => "--:--"

/-- Embeds `CoinData::time_labels`, parameterised by the local-time formatter.
The midpoint uses `i64` division, i.e. `Int.div` (truncation toward zero). -/
def CoinData.time_labels (c : CoinData) (fmt : Int → Option String) : List String :=
  if c.price_history.isEmpty then ["--:--", "--:--", "--:--"]
  else
    let first := ((c.price_history.head?).map Prod.fst).getD 0
    let last := ((c.price_history.getLast?).map Prod.fst).getD 0
    let mid := Int.tdiv (first + last) 2
    [fmtD fmt first, fmtD fmt mid, fmtD fmt last]

/-- Embeds `CoinData::load_history`: clear, push every supplied point (no
truncation), then set `price` from the back if present. -/
def CoinData.load_history (c : CoinData) (data : List (Int × ℚ)) : CoinData :=
  { c with
    price_history := data
    price :=
      match data.getLast? with
      | some p => p.2
      | none => c.price }

/-- Embeds `App` from src/app.rs.  `last_update : Option<Instant>` is embedded
as the presence flag `last_update : Bool` (wall-clock instants carry no further
observable structure here). -/
structure App where
  coins : List CoinData
  last_update : Bool
  running : Bool
  scroll_offset : Nat
  status_message : String
deriving DecidableEq, Repr

/-- Embeds `App::new`. -/
def App.new (symbols : List String) : App :=
  { coins := symbols.map fun s => CoinData.new s
    last_update := false
    running := true
    scroll_offset := 0
    status_message := "Starting..." }

/-- Merges a list of per-symbol fetch results into the coin list, exactly as
the `iter_mut().zip(results)` loops of `App::fetch_prices` and
`App::load_historical` do: an `Ok` payload is applied via `f`, an `Err` leaves
the coin untouched, and coins beyond the zip length are untouched. -/
def mergeCoins (f : CoinData → α → CoinData) :
    List CoinData → List (Except String α) → List CoinData
  | [], _ => []
  | c :: cs, [] => c :: cs
  | c :: cs, .ok x :: rs => f c x :: mergeCoins f cs rs
  | c :: cs, .error _ :: rs => c :: mergeCoins f cs rs

/-- Embeds `App::fetch_prices`, with the fetch results and the wall clock
passed explicitly.  After the merge loop the code unconditionally sets
`last_update = Some(now)` and `status_message = "Updated"` (overwriting any
per-symbol error message written during the loop). -/
def App.fetch_prices (a : App) (results : List (Except String TickerData))
    (now_ms : Int) : App :=
  { a with
    coins := mergeCoins (fun c t => c.update t now_ms) a.coins results
    last_update := true
    status_message := "Updated" }

/-- Embeds the merge loop of `App::load_historical`: per-symbol histories are
bulk-loaded on success; a failure only rewrites the status message. -/
def App.load_historical (a : App) (results : List (Except String (List (Int × ℚ)))) : App :=
  { a with
    coins := mergeCoins CoinData.load_history a.coins results
    status_message :=
      (a.coins.zip results).foldl
        (fun st p =>
          match p.2 with
          | .error e => "Error loading history for " ++ p.1.symbol ++ ": " ++ e
          | .ok _ => st)
        "Loading history..." }

/-- Embeds `App::scroll_up`. -/
def App.scroll_up (a : App) : App :=
  if 0 < a.scroll_offset then { a with scroll_offset := a.scroll_offset - 1 } else a

/-- Embeds `App::scroll_down` (`saturating_sub` is Nat subtraction). -/
def App.scroll_down (a : App) : App :=
  if a.scroll_offset < a.coins.length - 2 then
    { a with scroll_offset := a.scroll_offset + 1 }
  else a

/-- One user scroll command. -/
inductive ScrollOp where
  | up
  | down
deriving DecidableEq, Repr

/-- Applies one scroll command. -/
def applyScroll (a : App) : ScrollOp → App
  | .up => a.scroll_up
  | .down => a.scroll_down

/-- Applies a sequence of scroll commands. -/
def applyScrolls (a : App) (ops : List ScrollOp) : App :=
  ops.foldl applyScroll a

/-- Runs a sequence of `CoinData::update` calls (one refresh per element). -/
def runUpdates (c : CoinData) (inputs : List (TickerData × Int)) : CoinData :=
  inputs.foldl (fun acc p => acc.update p.1 p.2) c

/-- Embeds one JSON value of a kline row as far as `get_klines` inspects it
(`as_i64`, `as_str`, anything else). -/
inductive JVal where
  | jint (n : Int)
  | jstr (s : String)
  | jother
deriving DecidableEq, Repr

/-- Embeds `serde_json::Value::as_i64`. -/
def JVal.as_i64 : JVal → Option Int
  | .jint n => some n
  | _ => none

/-- Embeds `serde_json::Value::as_str`. -/
def JVal.as_str : JVal → Option String
  | .jstr s => some s
  | _ => none

/-- Embeds the per-row extraction closure of `BinanceClient::get_klines`:
`kline.first().and_then(as_i64)` and `kline.get(4).and_then(as_str)` parsed by
the abstract decimal parser `parse` (Rust `str::parse::<f64>`). -/
def klinePoint (parse : String → Option ℚ) (row : List JVal) : Option (Int × ℚ) :=
  (row.head?.bind JVal.as_i64).bind fun ts =>
    (((row.get? 4).bind JVal.as_str).bind parse).map fun p => (ts, p)

/-- Embeds `BinanceClient::get_klines` after the HTTP exchange: on a success
status the body rows are filtered through `klinePoint` and returned as `Ok`
(an empty body yields `Ok []`, never an error); a non-success status is an
error. -/
def get_klines_model (parse : String → Option ℚ) (statusOk : Bool)
    (rows : List (List JVal)) : Except String (List (Int × ℚ)) :=
  if statusOk then .ok (rows.filterMap (klinePoint parse))
  else .error "API error"

/-- Embeds the symbol preprocessing loop of `main` (src/main.rs): the first
`MAX_COINS` entries are trimmed, uppercased and alphanumeric-checked; valid
ones are suffixed with "USDT", invalid ones produce a warning line.  Returns
(symbols, warnings).  Rust `str::chars().all(char::is_alphanumeric)` is
embedded as `List.all` over the string's characters. -/
def processCoins (coins : List String) : List String × List String :=
  (coins.take MAX_COINS).foldl
    (fun acc coin =>
      let trimmed := coin.trim.toUpper
      if trimmed.data.all Char.isAlphanum then
        (acc.1 ++ [trimmed ++ "USDT"], acc.2)
      else
        (acc.1, acc.2 ++ ["Warning: Skipping invalid coin symbol: " ++ coin]))
    ([], [])

/-- Floor of a non-negative rational as a natural number (used to embed the
Rust float-to-integer conversions, which are only reached on non-negative
inputs in this code base). -/
def natFloor (x : ℚ) : Nat :=
  (⌊x⌋).toNat

/-- Embeds Rust `f64::round` (ties away from zero) on a non-negative input:
the floor of x + 1/2. -/
def natRustRound (x : ℚ) : Nat :=
  natFloor (x + 1 / 2)

/-- Embeds the round-half-to-even rounding that Rust's `{:.N}` float
formatting performs, on a non-negative input. -/
def natRHE (x : ℚ) : Nat :=
  let f := natFloor x
  let r := x - (f : ℚ)
  if r < 1 / 2 then f
  else if 1 / 2 < r then f + 1
  else if f % 2 = 0 then f else f + 1

/-- Decimal digit characters of a natural number, most significant first
(embeds Rust `to_string` on an unsigned value); fuel-structured so that it
reduces definitionally. -/
def natCharsGo : Nat → Nat → List Char → List Char
  | 0, n, acc => Char.ofNat (48 + n % 10) :: acc
  | fuel + 1, n, acc =>
    if n < 10 then Char.ofNat (48 + n % 10) :: acc
    else natCharsGo fuel (n / 10) (Char.ofNat (48 + n % 10) :: acc)

/-- Decimal digit characters of a natural number, most significant first. -/
def natChars (n : Nat) : List Char :=
  natCharsGo n n []

/-- Embeds Rust `format("{:02}", frac)`: two-digit zero-padded rendering of a
value below 100. -/
def pad2 (m : Nat) : List Char :=
  if m < 10 then '0' :: natChars m else natChars m

/-- Embeds the comma-insertion loop of `format_price` (src/ui.rs): walking the
digit string left to right with index `i` out of total length `n`, a comma is
pushed before character `i` whenever `i > 0` and `(n - i) % 3 == 0`. -/
def groupGo (n : Nat) : Nat → List Char → List Char
  | _, [] => []
  | i, ch :: cs =>
    (if 0 < i ∧ (n - i) % 3 = 0 then [','] else []) ++ ch :: groupGo n (i + 1) cs

/-- Comma-grouping of a digit string, as the source writes it. -/
def groupChars (l : List Char) : List Char :=
  groupGo l.length 0 l

/-- Takes the reversed digit string and emits groups of three with a comma
after each complete group that is followed by more digits. -/
def sgGo : List Char → List Char
  | [] => []
  | [a] => [a]
  | [a, b] => [a, b]
  | [a, b, ch] => [a, b, ch]
  | a :: b :: ch :: d :: rest => a :: b :: ch :: ',' :: sgGo (d :: rest)

/-- The claim-side reading of "a comma every 3 digits leftward from the
decimal point": chunk the digit string into threes from the right and join
with commas. -/
def specGroup (l : List Char) : List Char :=
  (sgGo l.reverse).reverse

/-- Two-decimal rendering of a non-negative rational, as Rust `{:.2}` float
formatting produces (round half to even, always two fractional digits). -/
def fixTwo (x : ℚ) : String :=
  let m := natRHE (x * 100)
  String.mk (natChars (m / 100)) ++ "." ++ String.mk (pad2 (m % 100))

/-- Embeds Rust `format("{:.2}", v)` including the sign. -/
def toFixed2 (v : ℚ) : String :=
  if v < 0 then "-" ++ fixTwo (-v) else fixTwo v

/-- One-decimal rendering of a non-negative rational, as Rust `{:.1}`. -/
def fixOne (x : ℚ) : String :=
  let m := natRHE (x * 10)
  String.mk (natChars (m / 10)) ++ "." ++ String.mk (natChars (m % 10))

/-- Embeds Rust `format("{:.1}", v)` including the sign. -/
def toFixed1 (v : ℚ) : String :=
  if v < 0 then "-" ++ fixOne (-v) else fixOne v

/-- Embeds Rust `format("{:.0}", v)` including the sign. -/
def toFixed0 (v : ℚ) : String :=
  if v < 0 then "-" ++ String.mk (natChars (natRHE (-v)))
  else String.mk (natChars (natRHE v))

/-- Embeds `format_volume` from src/ui.rs (thresholds are inclusive `>=`). -/
def format_volume (vol : ℚ) : String :=
  if 1000000000 ≤ vol then toFixed1 (vol / 1000000000) ++ "B"
  else if 1000000 ≤ vol then toFixed1 (vol / 1000000) ++ "M"
  else if 1000 ≤ vol then toFixed1 (vol / 1000) ++ "K"
  else toFixed0 vol

/-- The claim-side variant of `format_volume` with strict "above" thresholds,
under which the threshold values themselves fall to the integer branch. -/
def format_volume_claim (vol : ℚ) : String :=
  if 1000000000 < vol then toFixed1 (vol / 1000000000) ++ "B"
  else if 1000000 < vol then toFixed1 (vol / 1000000) ++ "M"
  else if 1000 < vol then toFixed1 (vol / 1000) ++ "K"
  else toFixed0 vol

/-- Embeds `format_price` from src/ui.rs.  In the `>= 1000` branch every
intermediate is non-negative, so the float-to-integer steps are embedded with
the Nat-valued helpers: `(price * 100).round()` as `natRustRound`, the
`as i64` truncation of the non-negative `rounded` as `natFloor`, and the
`clamp(0.0, 99.0)` upper clamp as `min 99` (the lower clamp is inherent in
Nat). -/
def format_price (price : ℚ) : String :=
  if 1000 ≤ price then
    let n := natRustRound (price * 100)
    let rounded : ℚ := (n : ℚ) / 100
    let whole := natFloor rounded
    let frac := min 99 (natRustRound ((rounded - (whole : ℚ)) * 100))
    "$" ++ String.mk (groupChars (natChars whole)) ++ "." ++ String.mk (pad2 frac)
  else "$" ++ toFixed2 price

/-- Embeds `format_price_short` from src/ui.rs. -/
def format_price_short (price : ℚ) : String :=
  if 1000000 ≤ price then toFixed1 (price / 1000000) ++ "M"
  else if 1000 ≤ price then toFixed1 (price / 1000) ++ "k"
  else toFixed2 price

/-- The history transformation one `CoinData::update` performs: evict the
front when at capacity, then push the new entry at the back. -/
def histStep (h : List (Int × ℚ)) (e : Int × ℚ) : List (Int × ℚ) :=
  (if MAX_HISTORY ≤ h.length then h.tail else h) ++ [e]

theorem update_price_history (c : CoinData) (t : TickerData) (now_ms : Int) :
    (c.update t now_ms).price_history = histStep c.price_history (now_ms, t.last_price) := rfl

theorem runUpdates_price_history (inputs : List (TickerData × Int)) (c : CoinData) :
    (runUpdates c inputs).price_history
      = (inputs.map fun p => (p.2, p.1.last_price)).foldl histStep c.price_history := by
  induction inputs generalizing c with
  | nil => rfl
  | cons p ps ih =>
    show (runUpdates (c.update p.1 p.2) ps).price_history = _
    rw [ih, List.map_cons, List.foldl_cons, update_price_history]

theorem foldl_histStep_drop (l : List (Int × ℚ)) :
    l.foldl histStep [] = l.drop (l.length - MAX_HISTORY) := by
  have hM0 : 0 < MAX_HISTORY := by decide
  induction l using List.reverseRecOn with
  | nil => rfl
  | append_singleton xs x ih =>
    rw [List.foldl_append, List.foldl_cons, List.foldl_nil, ih, histStep]
    have hax : (xs ++ [x]).length = xs.length + 1 := by
      rw [List.length_append, List.length_singleton]
    rcases le_or_lt MAX_HISTORY xs.length with h | h
    · have hlen : (xs.drop (xs.length - MAX_HISTORY)).length = MAX_HISTORY := by
        rw [List.length_drop]; omega
      have hcond : xs.length - MAX_HISTORY + 1 ≤ xs.length := by omega
      have hidx : xs.length + 1 - MAX_HISTORY = xs.length - MAX_HISTORY + 1 := by omega
      rw [if_pos (le_of_eq hlen.symm), List.tail_drop, hax, hidx,
        List.drop_append_of_le_length hcond]
    · rw [if_neg (by rw [List.length_drop]; omega)]
      have h1 : xs.length - MAX_HISTORY = 0 := by omega
      have h2 : (xs ++ [x]).length - MAX_HISTORY = 0 := by rw [hax]; omega
      rw [h1, h2, List.drop_zero, List.drop_zero]

/-- C1: starting from an empty `PriceSeries`, any sequence of
`update`/append calls leaves the buffer holding exactly the most recent
`min(totalAppends, 60)` appended `(timestamp, price)` entries in arrival
order (oldest first): the buffer is the suffix of the full appended sequence
obtained by dropping all but the last `MAX_HISTORY` entries, and its length is
exactly `min totalAppends MAX_HISTORY`, so an append at capacity evicts
exactly the oldest entry. -/
theorem c1_rolling_buffer (s : String) (inputs : List (TickerData × Int)) :
    (runUpdates (CoinData.new s) inputs).price_history
      = (inputs.map fun p => (p.2, p.1.last_price)).drop (inputs.length - MAX_HISTORY)
    ∧ (runUpdates (CoinData.new s) inputs).price_history.length
      = min inputs.length MAX_HISTORY := by
  have hbase : (CoinData.new s).price_history = [] := rfl
  have h := runUpdates_price_history inputs (CoinData.new s)
  rw [hbase, foldl_histStep_drop, List.length_map] at h
  refine ⟨h, ?_⟩
  rw [h, List.length_drop, List.length_map]
  omega

theorem mergeCoins_getElem? (f : CoinData → α → CoinData) (coins : List CoinData)
    (results : List (Except String α)) (k : Nat) :
    (mergeCoins f coins results)[k]? =
      (coins[k]?).map fun c =>
        match results[k]? with
        | some (.ok x) => f c x
        | _ => c := by
  induction coins generalizing results k with
  | nil => simp [mergeCoins]
  | cons c cs ih =>
    cases results with
    | nil =>
      cases k with
      | zero => simp [mergeCoins]
      | succ k => simp [mergeCoins]
    | cons r rs =>
      cases r with
      | ok x =>
        cases k with
        | zero => simp [mergeCoins]
        | succ k => simpa [mergeCoins] using ih rs k
      | error e =>
        cases k with
        | zero => simp [mergeCoins]
        | succ k => simpa [mergeCoins] using ih rs k

/-- C2: in one refresh round, a symbol whose fetch succeeded gets exactly the
five snapshot fields of its ticker with the new price appended to its history
(evicting the oldest entry only at capacity), while a symbol whose fetch
failed keeps its entire `CoinData` — snapshot fields and full price history —
unchanged; one symbol's failure never alters another symbol's state. -/
theorem c2_partial_failure_isolation (a : App)
    (results : List (Except String TickerData)) (now_ms : Int) (i j : Nat)
    (t : TickerData) (e : String) (ci cj : CoinData)
    (hci : a.coins[i]? = some ci) (hri : results[i]? = some (.ok t))
    (hcj : a.coins[j]? = some cj) (hrj : results[j]? = some (.error e)) :
    (a.fetch_prices results now_ms).coins[j]? = some cj
    ∧ (a.fetch_prices results now_ms).coins[i]?
        = some { ci with
                 price := t.last_price
                 change_24h := t.price_change_percent
                 high_24h := t.high_price
                 low_24h := t.low_price
                 volume_24h := t.volume
                 price_history :=
                   (if MAX_HISTORY ≤ ci.price_history.length then ci.price_history.tail
                    else ci.price_history) ++ [(now_ms, t.last_price)] } := by
  constructor
  · show (mergeCoins _ a.coins results)[j]? = some cj
    rw [mergeCoins_getElem?, hcj, hrj]
    rfl
  · show (mergeCoins _ a.coins results)[i]? = some _
    rw [mergeCoins_getElem?, hci, hri]
    rfl

theorem c2_partial_failure_isolation_witness :
    ((App.new ["AUSDT", "BUSDT"]).fetch_prices
        [Except.ok ⟨"AUSDT", 5, 1, 2, 3, 4⟩, Except.error "boom"] 7).coins[1]?
      = some (CoinData.new "BUSDT")
    ∧ ((App.new ["AUSDT", "BUSDT"]).fetch_prices
        [Except.ok ⟨"AUSDT", 5, 1, 2, 3, 4⟩, Except.error "boom"] 7).coins[0]?
      = some { CoinData.new "AUSDT" with
               price := 5
               change_24h := 1
               high_24h := 2
               low_24h := 3
               volume_24h := 4
               price_history :=
                 (if MAX_HISTORY ≤ (CoinData.new "AUSDT").price_history.length then
                    (CoinData.new "AUSDT").price_history.tail
                  else (CoinData.new "AUSDT").price_history) ++ [((7 : Int), (5 : ℚ))] } :=
  c2_partial_failure_isolation (App.new ["AUSDT", "BUSDT"])
    [Except.ok ⟨"AUSDT", 5, 1, 2, 3, 4⟩, Except.error "boom"] 7 0 1
    ⟨"AUSDT", 5, 1, 2, 3, 4⟩ "boom" (CoinData.new "AUSDT") (CoinData.new "BUSDT")
    rfl rfl rfl rfl

/-- C9: a successful-but-empty history response is `Ok []` (the kline
extraction of `get_klines` has no empty-data error), and bulk-loading an
empty sequence via `load_history` erases every previously stored point while
leaving the current `price` field unchanged; in `load_historical` a coin whose
result is `Ok []` therefore ends the round with an empty history instead of
its prior points. -/
theorem c9_empty_history_erases (parse : String → Option ℚ) (c : CoinData)
    (a : App) (results : List (Except String (List (Int × ℚ)))) (i : Nat)
    (ci : CoinData) (hci : a.coins[i]? = some ci)
    (hri : results[i]? = some (.ok [])) :
    get_klines_model parse true [] = .ok []
    ∧ (c.load_history []).price_history = [] ∧ (c.load_history []).price = c.price
    ∧ (a.load_historical results).coins[i]?
        = some { ci with price_history := [], price := ci.price } := by
  refine ⟨rfl, rfl, rfl, ?_⟩
  show (mergeCoins _ a.coins results)[i]? = _
  rw [mergeCoins_getElem?, hci, hri]
  rfl

theorem c9_empty_history_erases_witness :
    get_klines_model (fun _ => none) true [] = .ok []
    ∧ ((CoinData.new "AUSDT").load_history []).price_history = []
    ∧ ((CoinData.new "AUSDT").load_history []).price = (CoinData.new "AUSDT").price
    ∧ ((App.new ["AUSDT"]).load_historical [Except.ok []]).coins[0]?
        = some { CoinData.new "AUSDT" with
                 price_history := []
                 price := (CoinData.new "AUSDT").price } :=
  c9_empty_history_erases (fun _ => none) (CoinData.new "AUSDT")
    (App.new ["AUSDT"]) [Except.ok []] 0 (CoinData.new "AUSDT") rfl rfl

/-- C3 counterexample: `load_history` does not truncate; loading 61 points
into a fresh coin yields a buffer of 61 entries, strictly above the capacity
`MAX_HISTORY = 60`, so "bulkLoad stores at most C points even when the
supplied sequence is longer" is false of the code. -/
theorem c3_counterexample :
    ¬ (((CoinData.new "BTCUSDT").load_history
          (List.replicate 61 ((0 : Int), (1 : ℚ)))).price_history.length
        ≤ MAX_HISTORY) := by
  show ¬ ((List.replicate 61 ((0 : Int), (1 : ℚ))).length ≤ MAX_HISTORY)
  rw [List.length_replicate]
  decide

/-- C3 amended: `load_history` stores exactly the supplied sequence, without
truncation, so its result respects the capacity bound only when the supplied
sequence itself has at most `MAX_HISTORY` points (as the startup request,
which asks for at most `MAX_HISTORY` klines, supplies); the `length ≤ C`
invariant is enforced by `update` (append), which never grows a
within-capacity buffer past capacity. -/
theorem c3_amended_no_truncation (c : CoinData) (data : List (Int × ℚ))
    (t : TickerData) (now_ms : Int) :
    (c.load_history data).price_history = data
    ∧ (data.length ≤ MAX_HISTORY →
        (c.load_history data).price_history.length ≤ MAX_HISTORY)
    ∧ (c.price_history.length ≤ MAX_HISTORY →
        (c.update t now_ms).price_history.length ≤ MAX_HISTORY) := by
  have hM0 : 0 < MAX_HISTORY := by decide
  refine ⟨rfl, fun h => h, fun h => ?_⟩
  rw [update_price_history, histStep]
  rcases le_or_lt MAX_HISTORY c.price_history.length with hc | hc
  · have : c.price_history.length = MAX_HISTORY := le_antisymm h hc
    rw [if_pos hc, List.length_append, List.length_tail, List.length_singleton, this]
    omega
  · rw [if_neg (by omega), List.length_append, List.length_singleton]
    omega

theorem c3_amended_no_truncation_witness :
    (((CoinData.new "BTCUSDT").load_history [(1000, 100), (2000, 200)]).price_history
        = [(1000, 100), (2000, 200)])
    ∧ (((CoinData.new "BTCUSDT").load_history
          [(1000, 100), (2000, 200)]).price_history.length ≤ MAX_HISTORY)
    ∧ (((CoinData.new "BTCUSDT").update ⟨"BTCUSDT", 5, 1, 2, 3, 4⟩ 7).price_history.length
        ≤ MAX_HISTORY) :=
  have h := c3_amended_no_truncation (CoinData.new "BTCUSDT") [(1000, 100), (2000, 200)]
    ⟨"BTCUSDT", 5, 1, 2, 3, 4⟩ 7
  ⟨h.1, h.2.1 (by decide), h.2.2 (by decide)⟩

/-- C4 counterexample: with 5 symbols and the grid's page size of 4, three
scroll_down presses from the start reach offset 3, which lies outside
`[0, max(0, N - P))` = `[0, 1)` (and outside the inclusive reading `[0, 1]`
as well): the code bounds the offset by `N - 2`, not by `N - P` for every
page size `P`. -/
theorem c4_counterexample :
    (applyScrolls (App.new ["AUSDT", "BUSDT", "CUSDT", "DUSDT", "EUSDT"])
        [ScrollOp.down, ScrollOp.down, ScrollOp.down]).scroll_offset = 3
    ∧ ¬ ((applyScrolls (App.new ["AUSDT", "BUSDT", "CUSDT", "DUSDT", "EUSDT"])
        [ScrollOp.down, ScrollOp.down, ScrollOp.down]).scroll_offset
          ≤ max 0 (5 - 4)) := by
  constructor
  · rfl
  · decide

theorem applyScroll_coins (a : App) (op : ScrollOp) : (applyScroll a op).coins = a.coins := by
  cases op with
  | up =>
    show a.scroll_up.coins = a.coins
    rw [App.scroll_up]
    split <;> rfl
  | down =>
    show a.scroll_down.coins = a.coins
    rw [App.scroll_down]
    split <;> rfl

theorem applyScrolls_inv (ops : List ScrollOp) (a : App)
    (h : a.scroll_offset ≤ a.coins.length - 2) :
    (applyScrolls a ops).coins = a.coins
    ∧ (applyScrolls a ops).scroll_offset ≤ a.coins.length - 2 := by
  induction ops generalizing a with
  | nil => exact ⟨rfl, h⟩
  | cons op ops ih =>
    have hc : (applyScroll a op).coins = a.coins := applyScroll_coins a op
    have hoff : (applyScroll a op).scroll_offset ≤ a.coins.length - 2 := by
      cases op with
      | up =>
        show a.scroll_up.scroll_offset ≤ _
        rw [App.scroll_up]
        split
        · show a.scroll_offset - 1 ≤ _
          omega
        · exact h
      | down =>
        show a.scroll_down.scroll_offset ≤ _
        rw [App.scroll_down]
        split
        · next hlt => show a.scroll_offset + 1 ≤ _
                      omega
        · exact h
    have hstep : (applyScrolls (applyScroll a op) ops).coins = a.coins
        ∧ (applyScrolls (applyScroll a op) ops).scroll_offset ≤ a.coins.length - 2 := by
      have := ih (applyScroll a op) (by rw [hc]; exact hoff)
      rw [hc] at this
      exact this
    exact ⟨hstep.1, hstep.2⟩

/-- C4 amended: the scroll offset, starting from a fresh `App`, stays in the
inclusive range `[0, max(0, N - 2)]` (the code's bound uses the constant 2,
not the page size) after any sequence of scroll commands, and scrolling is a
no-op at both ends: `scroll_up` at offset 0 and `scroll_down` at offset
`N - 2` leave the state unchanged. -/
theorem c4_amended_scroll_bounds (symbols : List String) (ops : List ScrollOp)
    (a : App) :
    (applyScrolls (App.new symbols) ops).scroll_offset ≤ symbols.length - 2
    ∧ (a.scroll_offset = 0 → a.scroll_up = a)
    ∧ (a.scroll_offset = a.coins.length - 2 → a.scroll_down = a) := by
  refine ⟨?_, fun h0 => ?_, fun hend => ?_⟩
  · have hbase : (App.new symbols).scroll_offset ≤ (App.new symbols).coins.length - 2 :=
      Nat.zero_le _
    have h := (applyScrolls_inv ops (App.new symbols) hbase).2
    have hlen : (App.new symbols).coins.length = symbols.length := by
      show (symbols.map _).length = _
      rw [List.length_map]
    rw [hlen] at h
    exact h
  · rw [App.scroll_up, if_neg (by omega)]
  · rw [App.scroll_down, if_neg (by omega)]

theorem c4_amended_scroll_bounds_witness :
    (applyScrolls (App.new ["AUSDT", "BUSDT"]) [ScrollOp.down]).scroll_offset
        ≤ ["AUSDT", "BUSDT"].length - 2
    ∧ (App.new ["AUSDT", "BUSDT"]).scroll_up = App.new ["AUSDT", "BUSDT"]
    ∧ (App.new ["AUSDT", "BUSDT"]).scroll_down = App.new ["AUSDT", "BUSDT"] :=
  have h := c4_amended_scroll_bounds ["AUSDT", "BUSDT"] [ScrollOp.down]
    (App.new ["AUSDT", "BUSDT"])
  ⟨h.1, h.2.1 rfl, h.2.2 rfl⟩

theorem foldl_min_le_start (l : List ℚ) (a : ℚ) : l.foldl min a ≤ a := by
  induction l generalizing a with
  | nil => exact le_refl a
  | cons x l ih => exact le_trans (ih (min a x)) (min_le_left a x)

theorem foldl_min_le_mem (l : List ℚ) (a : ℚ) : ∀ x ∈ l, l.foldl min a ≤ x := by
  induction l generalizing a with
  | nil => intro x hx; cases hx
  | cons y l ih =>
    intro x hx
    rcases List.mem_cons.mp hx with h | h
    · subst h
      exact le_trans (foldl_min_le_start l (min a x)) (min_le_right a x)
    · exact ih (min a y) x h

theorem foldl_min_mem (l : List ℚ) (a : ℚ) : l.foldl min a = a ∨ l.foldl min a ∈ l := by
  induction l generalizing a with
  | nil => exact Or.inl rfl
  | cons x l ih =>
    rcases ih (min a x) with h | h
    · rcases min_choice a x with hm | hm
      · exact Or.inl (by rw [List.foldl_cons, h, hm])
      · exact Or.inr (by rw [List.foldl_cons, h, hm]; exact List.mem_cons_self x l)
    · exact Or.inr (List.mem_cons_of_mem x h)

theorem foldl_max_start_le (l : List ℚ) (a : ℚ) : a ≤ l.foldl max a := by
  induction l generalizing a with
  | nil => exact le_refl a
  | cons x l ih => exact le_trans (le_max_left a x) (ih (max a x))

theorem foldl_max_mem_le (l : List ℚ) (a : ℚ) : ∀ x ∈ l, x ≤ l.foldl max a := by
  induction l generalizing a with
  | nil => intro x hx; cases hx
  | cons y l ih =>
    intro x hx
    rcases List.mem_cons.mp hx with h | h
    · subst h
      exact le_trans (le_max_right a x) (foldl_max_start_le l (max a x))
    · exact ih (max a y) x h

theorem foldl_max_mem (l : List ℚ) (a : ℚ) : l.foldl max a = a ∨ l.foldl max a ∈ l := by
  induction l generalizing a with
  | nil => exact Or.inl rfl
  | cons x l ih =>
    rcases ih (max a x) with h | h
    · rcases max_choice a x with hm | hm
      · exact Or.inl (by rw [List.foldl_cons, h, hm])
      · exact Or.inr (by rw [List.foldl_cons, h, hm]; exact List.mem_cons_self x l)
    · exact Or.inr (List.mem_cons_of_mem x h)

/-- C5: `price_bounds` returns exactly `(0, 100)` on an empty series; on a
non-empty series it returns the extreme stored prices padded outward by one
tenth of their range, which puts the returned bounds strictly outside the
stored extremes whenever two stored prices differ, and makes both bounds
equal the common price when all stored prices coincide. -/
theorem c5_price_bounds (c : CoinData) :
    (c.price_history = [] → c.price_bounds = (0, 100))
    ∧ (∀ p ps, c.price_history.map Prod.snd = p :: ps →
        ∃ mn mx,
          mn ∈ p :: ps ∧ mx ∈ p :: ps
          ∧ (∀ q ∈ p :: ps, mn ≤ q ∧ q ≤ mx)
          ∧ c.price_bounds = (mn - (mx - mn) * (1 / 10), mx + (mx - mn) * (1 / 10))
          ∧ (mn < mx → (c.price_bounds).1 < mn ∧ mx < (c.price_bounds).2)
          ∧ (mn = mx → c.price_bounds = (mn, mx))) := by
  constructor
  · intro h
    simp only [CoinData.price_bounds, h, List.map_nil]
  · intro p ps hm
    refine ⟨ps.foldl min p, ps.foldl max p, ?_, ?_, ?_, ?_, ?_, ?_⟩
    · rcases foldl_min_mem ps p with h | h
      · rw [h]; exact List.mem_cons_self p ps
      · exact List.mem_cons_of_mem p h
    · rcases foldl_max_mem ps p with h | h
      · rw [h]; exact List.mem_cons_self p ps
      · exact List.mem_cons_of_mem p h
    · intro q hq
      rcases List.mem_cons.mp hq with h | h
      · subst h
        exact ⟨foldl_min_le_start ps q, foldl_max_start_le ps q⟩
      · exact ⟨foldl_min_le_mem ps p q h, foldl_max_mem_le ps p q h⟩
    · simp only [CoinData.price_bounds, hm]
    · intro hlt
      have hpad : 0 < (ps.foldl max p - ps.foldl min p) * (1 / 10) := by
        have : 0 < ps.foldl max p - ps.foldl min p := by linarith
        linarith
      constructor
      · simp only [CoinData.price_bounds, hm]
        linarith
      · simp only [CoinData.price_bounds, hm]
        linarith
    · intro heq
      simp only [CoinData.price_bounds, hm, heq]
      rw [sub_self, zero_mul, sub_zero, add_zero]

theorem c5_price_bounds_witness :
    ∃ mn mx,
      mn ∈ [(100 : ℚ), 200] ∧ mx ∈ [(100 : ℚ), 200]
      ∧ (∀ q ∈ [(100 : ℚ), 200], mn ≤ q ∧ q ≤ mx)
      ∧ ((CoinData.new "BTCUSDT").load_history [(1000, 100), (2000, 200)]).price_bounds
          = (mn - (mx - mn) * (1 / 10), mx + (mx - mn) * (1 / 10))
      ∧ (mn < mx →
          (((CoinData.new "BTCUSDT").load_history [(1000, 100), (2000, 200)]).price_bounds).1 < mn
          ∧ mx < (((CoinData.new "BTCUSDT").load_history
              [(1000, 100), (2000, 200)]).price_bounds).2)
      ∧ (mn = mx →
          ((CoinData.new "BTCUSDT").load_history [(1000, 100), (2000, 200)]).price_bounds
            = (mn, mx)) :=
  (c5_price_bounds ((CoinData.new "BTCUSDT").load_history [(1000, 100), (2000, 200)])).2
    100 [200] rfl

/-- C8: `time_labels` always returns exactly three labels; on an empty series
three placeholders; on a non-empty series the formatted oldest timestamp, the
formatted integer midpoint of the oldest and newest timestamps (an arithmetic
mean, not necessarily an actual buffer entry), and the formatted newest
timestamp, where a timestamp whose local-time conversion fails renders as the
placeholder. -/
theorem c8_time_labels (c : CoinData) (fmt : Int → Option String) :
    (c.time_labels fmt).length = 3
    ∧ (c.price_history = [] → c.time_labels fmt = ["--:--", "--:--", "--:--"])
    ∧ (∀ t0 p0 rest, c.price_history = (t0, p0) :: rest →
        ∃ tl, ((t0, p0) :: rest).getLast? = some tl
          ∧ c.time_labels fmt
              = [fmtD fmt t0, fmtD fmt (Int.tdiv (t0 + tl.1) 2), fmtD fmt tl.1])
    ∧ (∀ ts, fmt ts = none → fmtD fmt ts = "--:--") := by
  refine ⟨?_, fun h => ?_, fun t0 p0 rest h => ?_, fun ts hts => ?_⟩
  · rw [CoinData.time_labels]
    split <;> rfl
  · rw [CoinData.time_labels, if_pos (by rw [h]; rfl)]
  · have hne : (t0, p0) :: rest ≠ [] := List.cons_ne_nil _ _
    refine ⟨((t0, p0) :: rest).getLast hne, List.getLast?_eq_getLast _ hne, ?_⟩
    rw [CoinData.time_labels, if_neg (by rw [h]; simp)]
    simp only [h, List.head?_cons, List.getLast?_eq_getLast _ hne]
    simp
  · rw [fmtD, hts]

theorem c8_time_labels_witness :
    ∃ tl, [((1000 : Int), (100 : ℚ)), (2000, 200)].getLast? = some tl
      ∧ ((CoinData.new "BTCUSDT").load_history
            [(1000, 100), (2000, 200)]).time_labels (fun _ => none)
          = [fmtD (fun _ => none) 1000, fmtD (fun _ => none) (Int.tdiv (1000 + tl.1) 2),
             fmtD (fun _ => none) tl.1] :=
  (c8_time_labels ((CoinData.new "BTCUSDT").load_history [(1000, 100), (2000, 200)])
    (fun _ => none)).2.2.1 1000 100 [(2000, 200)] rfl

theorem processCoins_fold (l : List String) (s w : List String) :
    l.foldl (fun acc coin =>
        let trimmed := coin.trim.toUpper
        if trimmed.data.all Char.isAlphanum then (acc.1 ++ [trimmed ++ "USDT"], acc.2)
        else (acc.1, acc.2 ++ ["Warning: Skipping invalid coin symbol: " ++ coin])) (s, w)
      = (s ++ l.filterMap (fun c =>
            if (c.trim.toUpper).data.all Char.isAlphanum then some (c.trim.toUpper ++ "USDT")
            else none),
         w ++ (l.filter (fun c => !((c.trim.toUpper).data.all Char.isAlphanum))).map
            (fun c => "Warning: Skipping invalid coin symbol: " ++ c)) := by
  induction l generalizing s w with
  | nil => simp
  | cons c cs ih =>
    by_cases hc : (c.trim.toUpper).data.all Char.isAlphanum
    · rw [List.foldl_cons]
      simp only [hc, if_true, if_pos]
      rw [ih]
      have hc2 : ∀ x ∈ c.trim.toUpper.data, x.isAlphanum = true := by simpa using hc
      simp only [List.filterMap_cons, List.filter_cons, if_pos hc2, hc, Bool.not_true]
      simp
    · rw [List.foldl_cons]
      simp only [hc, if_false, if_neg]
      rw [ih]
      simp [List.filterMap_cons, List.filter_cons, hc]
      have hc2 : ¬ ∀ x ∈ c.trim.toUpper.data, x.isAlphanum = true := by simpa using hc
      rw [if_neg hc2]

/-- C10: only the first `MAX_COINS = 20` entries of the user-supplied coin
list influence the startup symbol list at all — entries beyond the 20th
produce neither a symbol nor a warning — and each retained entry is trimmed,
uppercased and suffixed with "USDT"; because "USDT" is itself alphanumeric,
running the alphanumeric validity check after the suffixing (as the claim
reads it) selects exactly the same symbols as the code's check before
suffixing. -/
theorem c10_coin_preprocessing (coins : List String) :
    processCoins coins = processCoins (coins.take MAX_COINS)
    ∧ (processCoins coins).1 = (coins.take MAX_COINS).filterMap (fun c =>
        if (c.trim.toUpper).data.all Char.isAlphanum then some (c.trim.toUpper ++ "USDT")
        else none)
    ∧ (processCoins coins).1 = (coins.take MAX_COINS).filterMap (fun c =>
        if (c.trim.toUpper ++ "USDT").data.all Char.isAlphanum then
          some (c.trim.toUpper ++ "USDT")
        else none)
    ∧ (processCoins coins).2 = ((coins.take MAX_COINS).filter
        (fun c => !((c.trim.toUpper).data.all Char.isAlphanum))).map
        (fun c => "Warning: Skipping invalid coin symbol: " ++ c) := by
  have hsuffix : ∀ c : String,
      (c.trim.toUpper ++ "USDT").data.all Char.isAlphanum
        = (c.trim.toUpper).data.all Char.isAlphanum := by
    intro c
    rw [String.data_append, List.all_append]
    have : ("USDT" : String).data.all Char.isAlphanum = true := rfl
    rw [this, Bool.and_true]
  refine ⟨?_, ?_, ?_, ?_⟩
  · rw [processCoins, processCoins, List.take_take]
    norm_num
  · rw [processCoins, processCoins_fold]
    simp
  · rw [processCoins, processCoins_fold]
    simp only [hsuffix]
    simp
  · rw [processCoins, processCoins_fold]
    simp

theorem q_le_B : (1000000000 : ℚ) ≤ 1500000000 := by norm_num

theorem q_le_M : (1000000 : ℚ) ≤ 1500000 := by norm_num

theorem q_lt_B : (1500000 : ℚ) < 1000000000 := by norm_num

theorem q_le_K : (1000 : ℚ) ≤ 1500 := by norm_num

theorem q_lt_M : (1500 : ℚ) < 1000000 := by norm_num

theorem q_lt_K : (500 : ℚ) < 1000 := by norm_num

/-- C7 counterexample: at the threshold value 1000 the code (inclusive `>=`)
renders "1.0K", while the claim's strict-"above" reading demands the integer
form "1000"; the two disagree, so the claim is false at the thresholds. -/
theorem c7_counterexample :
    format_volume 1000 = "1.0K" ∧ format_volume_claim 1000 = "1000"
    ∧ format_volume 1000 ≠ format_volume_claim 1000 := by
  have h1 : format_volume 1000 = "1.0K" := by
    simp only [format_volume, toFixed1, fixOne, natRHE, natFloor]
    norm_num
    repeat (simp only [Int.reduceToNat]; norm_num)
    decide
  have h2 : format_volume_claim 1000 = "1000" := by
    simp only [format_volume_claim, toFixed0, natRHE, natFloor]
    norm_num
    repeat (simp only [Int.reduceToNat]; norm_num)
    decide
  refine ⟨h1, h2, ?_⟩
  rw [h1, h2]
  decide

/-- C7 amended: `format_volume` uses inclusive thresholds — at or above 1e9
one decimal and "B"; at or above 1e6 (and below 1e9) one decimal and "M"; at
or above 1e3 (and below 1e6) one decimal and "K"; below 1e3 the integer form
with no decimals — with 500 → "500", 1500 → "1.5K", 1500000 → "1.5M",
1500000000 → "1.5B". -/
theorem c7_amended_volume_thresholds (v : ℚ) :
    (1000000000 ≤ v → format_volume v = toFixed1 (v / 1000000000) ++ "B")
    ∧ (1000000 ≤ v → v < 1000000000 → format_volume v = toFixed1 (v / 1000000) ++ "M")
    ∧ (1000 ≤ v → v < 1000000 → format_volume v = toFixed1 (v / 1000) ++ "K")
    ∧ (v < 1000 → format_volume v = toFixed0 v)
    ∧ format_volume 500 = "500" ∧ format_volume 1500 = "1.5K"
    ∧ format_volume 1500000 = "1.5M" ∧ format_volume 1500000000 = "1.5B" := by
  refine ⟨fun h => ?_, fun h1 h2 => ?_, fun h1 h2 => ?_, fun h => ?_, ?_, ?_, ?_, ?_⟩
  · rw [format_volume, if_pos h]
  · rw [format_volume, if_neg (not_le.mpr h2), if_pos h1]
  · rw [format_volume, if_neg (not_le.mpr (lt_trans h2 (by norm_num))),
      if_neg (not_le.mpr h2), if_pos h1]
  · rw [format_volume, if_neg (not_le.mpr (lt_trans h (by norm_num))),
      if_neg (not_le.mpr (lt_trans h (by norm_num))), if_neg (not_le.mpr h)]
  · simp only [format_volume, toFixed0, natRHE, natFloor]
    norm_num
    repeat (simp only [Int.reduceToNat]; norm_num)
    decide
  · simp only [format_volume, toFixed1, fixOne, natRHE, natFloor]
    norm_num
    repeat (simp only [Int.reduceToNat]; norm_num)
    decide
  · simp only [format_volume, toFixed1, fixOne, natRHE, natFloor]
    norm_num
    repeat (simp only [Int.reduceToNat]; norm_num)
    decide
  · simp only [format_volume, toFixed1, fixOne, natRHE, natFloor]
    norm_num
    repeat (simp only [Int.reduceToNat]; norm_num)
    decide

theorem c7_amended_volume_thresholds_witness :
    format_volume 1500000000 = toFixed1 ((1500000000 : ℚ) / 1000000000) ++ "B"
    ∧ format_volume 1500000 = toFixed1 ((1500000 : ℚ) / 1000000) ++ "M"
    ∧ format_volume 1500 = toFixed1 ((1500 : ℚ) / 1000) ++ "K"
    ∧ format_volume 500 = toFixed0 500 :=
  ⟨(c7_amended_volume_thresholds 1500000000).1 q_le_B,
   (c7_amended_volume_thresholds 1500000).2.1 q_le_M q_lt_B,
   (c7_amended_volume_thresholds 1500).2.2.1 q_le_K q_lt_M,
   (c7_amended_volume_thresholds 500).2.2.2.1 q_lt_K⟩

theorem natCharsGo_mem (fuel : Nat) : ∀ (n : Nat) (acc : List Char) (ch : Char),
    ch ∈ natCharsGo fuel n acc → ch ∈ acc ∨ ∃ m, m < 10 ∧ ch = Char.ofNat (48 + m) := by
  induction fuel with
  | zero =>
    intro n acc ch h
    rw [natCharsGo] at h
    rcases List.mem_cons.mp h with h | h
    · exact Or.inr ⟨n % 10, Nat.mod_lt _ (by decide), h⟩
    · exact Or.inl h
  | succ fuel ih =>
    intro n acc ch h
    rw [natCharsGo] at h
    split at h
    · rcases List.mem_cons.mp h with h | h
      · exact Or.inr ⟨n % 10, Nat.mod_lt _ (by decide), h⟩
      · exact Or.inl h
    · rcases ih (n / 10) (Char.ofNat (48 + n % 10) :: acc) ch h with h | h
      · rcases List.mem_cons.mp h with h | h
        · exact Or.inr ⟨n % 10, Nat.mod_lt _ (by decide), h⟩
        · exact Or.inl h
      · exact Or.inr h

theorem natChars_ne_comma (n : Nat) : ∀ ch ∈ natChars n, ch ≠ ',' := by
  intro ch hch
  rcases natCharsGo_mem n n [] ch hch with h | ⟨m, hm, rfl⟩
  · cases h
  · exact (show ∀ m < 10, Char.ofNat (48 + m) ≠ ',' by decide) m hm

theorem pad2_ne_comma (n : Nat) : ∀ ch ∈ pad2 n, ch ≠ ',' := by
  intro ch hch
  rw [pad2] at hch
  split at hch
  · rcases List.mem_cons.mp hch with h | h
    · rw [h]; decide
    · exact natChars_ne_comma n ch h
  · exact natChars_ne_comma n ch hch

theorem pad2_length (m : Nat) (h : m < 100) : (pad2 m).length = 2 :=
  (show ∀ k < 100, (pad2 k).length = 2 by decide) m h

theorem groupGo_append (n : Nat) (u : List Char) : ∀ (v : List Char) (i : Nat),
    groupGo n i (u ++ v) = groupGo n i u ++ groupGo n (i + u.length) v := by
  induction u with
  | nil =>
    intro v i
    rw [List.nil_append, groupGo, List.nil_append, List.length_nil, Nat.add_zero]
  | cons c u ih =>
    intro v i
    rw [List.cons_append, groupGo, groupGo, ih v (i + 1), List.length_cons]
    have : i + 1 + u.length = i + (u.length + 1) := by omega
    rw [this, List.append_assoc, List.cons_append]

theorem groupGo_shift (n : Nat) (l : List Char) : ∀ i : Nat, i + l.length ≤ n →
    groupGo (n + 3) i l = groupGo n i l := by
  induction l with
  | nil => intro i _; rfl
  | cons c cs ih =>
    intro i h
    rw [List.length_cons] at h
    rw [groupGo, groupGo, ih (i + 1) (by omega)]
    have : n + 3 - i = n - i + 3 := by omega
    rw [this]
    have h3 : (n - i + 3) % 3 = (n - i) % 3 := by omega
    rw [h3]

theorem sgGo_reverse_aux (k : Nat) : ∀ r : List Char, r.length ≤ k →
    groupChars r.reverse = (sgGo r).reverse := by
  induction k with
  | zero =>
    intro r h
    have : r = [] := List.length_eq_zero.mp (Nat.le_zero.mp h)
    rw [this]
    rfl
  | succ k ih =>
    intro r h
    match r with
    | [] => rfl
    | [a] => rfl
    | [a, b] => rfl
    | [a, b, c] => rfl
    | a :: b :: c :: d :: rest =>
      have hrev : (a :: b :: c :: d :: rest).reverse = (d :: rest).reverse ++ [c, b, a] := by
        rw [List.reverse_cons, List.reverse_cons, List.reverse_cons]
        rw [List.append_assoc, List.append_assoc]
        rfl
      have hmlen : ((d :: rest).reverse).length = rest.length + 1 := by
        rw [List.length_reverse, List.length_cons]
      have hlen : ((d :: rest).reverse ++ [c, b, a]).length = ((d :: rest).reverse).length + 3 := by
        rw [List.length_append]
        rfl
      rw [hrev, groupChars, hlen,
        groupGo_append (((d :: rest).reverse).length + 3) ((d :: rest).reverse) [c, b, a] 0,
        groupGo_shift (((d :: rest).reverse).length) ((d :: rest).reverse) 0 (by omega)]
      have htail : groupGo (((d :: rest).reverse).length + 3) (0 + ((d :: rest).reverse).length)
          [c, b, a] = [',', c, b, a] := by
        rw [groupGo, if_pos ⟨by omega, by omega⟩, groupGo, if_neg (by omega), groupGo,
          if_neg (by omega), groupGo]
        rfl
      rw [htail]
      have hih := ih (d :: rest) (by
        have : (a :: b :: c :: d :: rest).length = (d :: rest).length + 3 := by
          rw [List.length_cons, List.length_cons, List.length_cons]
        omega)
      have hgc : groupGo (((d :: rest).reverse).length) 0 ((d :: rest).reverse)
          = groupChars ((d :: rest).reverse) := rfl
      rw [hgc, hih, sgGo]
      rw [List.reverse_cons, List.reverse_cons, List.reverse_cons, List.reverse_cons]
      rw [List.append_assoc, List.append_assoc, List.append_assoc]
      rfl

theorem groupChars_eq_specGroup (l : List Char) : groupChars l = specGroup l := by
  have h := sgGo_reverse_aux l.reverse.length l.reverse (le_refl _)
  rw [List.reverse_reverse] at h
  rw [specGroup]
  exact h

theorem natFloor_eq_of (x : ℚ) (k : Nat) (h1 : (k : ℚ) ≤ x) (h2 : x < (k : ℚ) + 1) :
    natFloor x = k := by
  have hfl : ⌊x⌋ = (k : ℤ) := by
    rw [Int.floor_eq_iff]
    constructor
    · exact_mod_cast h1
    · exact_mod_cast h2
  rw [natFloor, hfl, Int.toNat_natCast]

theorem natFloor_cast_div_hundred (n : Nat) : natFloor ((n : ℚ) / 100) = n / 100 := by
  apply natFloor_eq_of
  · rw [le_div_iff (by norm_num : (0 : ℚ) < 100)]
    exact_mod_cast Nat.div_mul_le_self n 100
  · rw [div_lt_iff (by norm_num : (0 : ℚ) < 100)]
    have hn : n < (n / 100 + 1) * 100 := by omega
    push_cast
    exact_mod_cast hn

theorem natRustRound_cast (k : Nat) : natRustRound (k : ℚ) = k := by
  rw [natRustRound]
  apply natFloor_eq_of
  · linarith [show (0 : ℚ) < 1 / 2 by norm_num]
  · linarith [show (1 : ℚ) / 2 < 1 by norm_num]

theorem format_price_ge (q : ℚ) (hq : 1000 ≤ q) :
    format_price q = "$" ++ String.mk (groupChars (natChars (natRustRound (q * 100) / 100)))
      ++ "." ++ String.mk (pad2 (natRustRound (q * 100) % 100)) := by
  rw [format_price, if_pos hq]
  show "$" ++ String.mk (groupChars (natChars (natFloor ((natRustRound (q * 100) : ℚ) / 100))))
      ++ "." ++ String.mk (pad2 (min 99 (natRustRound
        ((((natRustRound (q * 100) : ℚ)) / 100
          - ((natFloor ((natRustRound (q * 100) : ℚ) / 100) : ℚ))) * 100)))) = _
  have hwhole : natFloor ((natRustRound (q * 100) : ℚ) / 100) = natRustRound (q * 100) / 100 :=
    natFloor_cast_div_hundred _
  rw [hwhole]
  have hinner : ((natRustRound (q * 100) : ℚ) / 100 - ((natRustRound (q * 100) / 100 : Nat) : ℚ))
      * 100 = ((natRustRound (q * 100) % 100 : Nat) : ℚ) := by
    have h3 : natRustRound (q * 100) / 100 * 100 + natRustRound (q * 100) % 100
        = natRustRound (q * 100) := by omega
    have h4 : ((natRustRound (q * 100) / 100 * 100 + natRustRound (q * 100) % 100 : Nat) : ℚ)
        = ((natRustRound (q * 100) : Nat) : ℚ) := by exact_mod_cast h3
    push_cast at h4
    field_simp
    linarith
  rw [hinner, natRustRound_cast]
  have hclamp : min 99 (natRustRound (q * 100) % 100) = natRustRound (q * 100) % 100 :=
    min_eq_right (by omega)
  rw [hclamp]

theorem string_append_assoc (a b c : String) : a ++ b ++ c = a ++ (b ++ c) := by
  apply String.ext
  rw [String.data_append, String.data_append, String.data_append, String.data_append]
  rw [List.append_assoc]

theorem format_price_lt (q : ℚ) (h0 : 0 ≤ q) (h1 : q < 1000) :
    format_price q = "$" ++ String.mk (natChars (natRHE (q * 100) / 100)) ++ "."
      ++ String.mk (pad2 (natRHE (q * 100) % 100)) := by
  rw [format_price, if_neg (not_le.mpr h1), toFixed2, if_neg (not_lt.mpr h0), fixTwo]
  apply String.ext
  simp only [String.data_append, List.append_assoc]

theorem q_half_nonneg : (0 : ℚ) ≤ 1 / 2 := by norm_num

theorem q_half_lt : (1 : ℚ) / 2 < 1000 := by norm_num

/-- C6: `format_price` renders the five reference values exactly as claimed;
every value in [0, 1000) renders as "$" followed by the digits of the
rounded-to-cents value with a dot and exactly two fractional digits and no
comma anywhere; every value at or above 1000 renders as "$" followed by the
whole part's digits grouped by a comma every three digits leftward from the
decimal point (`specGroup`), a dot, and exactly two fractional digits, where
whole and fractional part come from rounding the value to two decimals. -/
theorem c6_format_price (q : ℚ) :
    (format_price (1 / 2) = "$0.50" ∧ format_price (9999 / 100) = "$99.99"
      ∧ format_price 1000 = "$1,000.00" ∧ format_price (4206942 / 100) = "$42,069.42"
      ∧ format_price 100000 = "$100,000.00")
    ∧ (0 ≤ q → q < 1000 →
        format_price q = "$" ++ String.mk (natChars (natRHE (q * 100) / 100)) ++ "."
          ++ String.mk (pad2 (natRHE (q * 100) % 100))
        ∧ (pad2 (natRHE (q * 100) % 100)).length = 2
        ∧ (∀ ch ∈ natChars (natRHE (q * 100) / 100) ++ pad2 (natRHE (q * 100) % 100),
            ch ≠ ','))
    ∧ (1000 ≤ q →
        format_price q
            = "$" ++ String.mk (specGroup (natChars (natRustRound (q * 100) / 100)))
              ++ "." ++ String.mk (pad2 (natRustRound (q * 100) % 100))
        ∧ (pad2 (natRustRound (q * 100) % 100)).length = 2
        ∧ (∀ ch ∈ natChars (natRustRound (q * 100) / 100), ch ≠ ',')) := by
  refine ⟨⟨?_, ?_, ?_, ?_, ?_⟩, fun h0 h1 => ?_, fun hge => ?_⟩
  · simp only [format_price, toFixed2, fixTwo, natRHE, natFloor]
    norm_num
    repeat (simp only [Int.reduceToNat]; norm_num)
    decide
  · simp only [format_price, toFixed2, fixTwo, natRHE, natFloor]
    norm_num
    repeat (simp only [Int.reduceToNat]; norm_num)
    decide
  · simp only [format_price, natRustRound, natFloor, natRHE]
    norm_num
    repeat (simp only [Int.reduceToNat]; norm_num)
    decide
  · simp only [format_price, natRustRound, natFloor, natRHE]
    norm_num
    repeat (simp only [Int.reduceToNat]; norm_num)
    decide
  · simp only [format_price, natRustRound, natFloor, natRHE]
    norm_num
    repeat (simp only [Int.reduceToNat]; norm_num)
    decide
  · refine ⟨format_price_lt q h0 h1, pad2_length _ (Nat.mod_lt _ (by decide)), ?_⟩
    intro ch hch
    rcases List.mem_append.mp hch with h | h
    · exact natChars_ne_comma _ ch h
    · exact pad2_ne_comma _ ch h
  · refine ⟨?_, pad2_length _ (Nat.mod_lt _ (by decide)), natChars_ne_comma _⟩
    rw [format_price_ge q hge, groupChars_eq_specGroup]

theorem c6_format_price_witness :
    (format_price (1 / 2) = "$" ++ String.mk (natChars (natRHE ((1 / 2 : ℚ) * 100) / 100))
        ++ "." ++ String.mk (pad2 (natRHE ((1 / 2 : ℚ) * 100) % 100))
      ∧ (pad2 (natRHE ((1 / 2 : ℚ) * 100) % 100)).length = 2
      ∧ (∀ ch ∈ natChars (natRHE ((1 / 2 : ℚ) * 100) / 100)
            ++ pad2 (natRHE ((1 / 2 : ℚ) * 100) % 100), ch ≠ ','))
    ∧ (format_price 1000
          = "$" ++ String.mk (specGroup (natChars (natRustRound ((1000 : ℚ) * 100) / 100)))
            ++ "." ++ String.mk (pad2 (natRustRound ((1000 : ℚ) * 100) % 100))
      ∧ (pad2 (natRustRound ((1000 : ℚ) * 100) % 100)).length = 2
      ∧ (∀ ch ∈ natChars (natRustRound ((1000 : ℚ) * 100) / 100), ch ≠ ',')) :=
  ⟨(c6_format_price (1 / 2)).2.1 q_half_nonneg q_half_lt,
   (c6_format_price 1000).2.2 (le_refl (1000 : ℚ))⟩
